import Mathlib

/-!
Verification of the picoLok DCC driver (`src/classes/operationmode.py`).

The Python source is shallowly embedded below.  Python integers are
arbitrary-precision: nonnegative byte/word values are embedded as `Nat`,
values that can be negative (speeds, function bytes, bit masks built with
`~`) as `Int`.  Python's bitwise operators on `Int` are modelled by
`pyAnd`/`pyOr`/`pyNot`/`pyShiftL`, which implement the exact two's-complement
semantics of Python's `&`, `|`, `~`, `<<` (an `Int.negSucc n` has the bit
pattern of the complement of `n`).  Hardware access (GPIO pins, the ADC
current sensor, the PIO state machine) is outside the embedded state; the
word list handed to the PIO state machine by `send2track` is returned as an
explicit result instead.
-/

/-- Bitwise difference on `Nat` (`a AND NOT b`), written with the
kernel-accelerated operations so that it evaluates on literals. -/
def ndiff (a b : Nat) : Nat := a ^^^ (a &&& b)

/-- Python's bitwise `&` on arbitrary integers (two's complement). -/
def pyAnd : Int → Int → Int
  | .ofNat a, .ofNat b => .ofNat (a &&& b)
  | .ofNat a, .negSucc b => .ofNat (ndiff a b)
  | .negSucc a, .ofNat b => .ofNat (ndiff b a)
  | .negSucc a, .negSucc b => .negSucc (a ||| b)

/-- Python's bitwise `|` on arbitrary integers (two's complement). -/
def pyOr : Int → Int → Int
  | .ofNat a, .ofNat b => .ofNat (a ||| b)
  | .ofNat a, .negSucc b => .negSucc (ndiff b a)
  | .negSucc a, .ofNat b => .negSucc (ndiff a b)
  | .negSucc a, .negSucc b => .negSucc (a &&& b)

/-- Python's bitwise `~` on arbitrary integers: `~a = -a-1`. -/
def pyNot : Int → Int
  | .ofNat a => .negSucc a
  | .negSucc a => .ofNat a

/-- Python's `<<` on arbitrary integers: `a << s = a * 2^s`. -/
def pyShiftL (a : Int) (s : Nat) : Int := a * 2 ^ s

/-- Python's `>>` (arithmetic shift, floor division by `2^s`). -/
def pyShiftR (a : Int) (s : Nat) : Int := a >>> s

namespace ELECTRICAL

/-- `PREAMBLE = const(14)`: number of preamble one-bits. -/
def PREAMBLE : Nat := 14

/-- Pre-rendered Idle packet: two 32-bit transfer words. -/
def IDLE : List Nat :=
  [0b11111111111111111111111111111111, 0b11110111111110000000000111111111]

/-- Pre-rendered broadcast emergency-stop packet: two 32-bit transfer words. -/
def EMERG : List Nat :=
  [0b11111111111111111111111111111111, 0b11110000000000010000010010000011]

/-- Embedding of `ELECTRICAL.speed_control_128steps`.  `direction` and
`speed` are Python ints (`speed` may be `-1` for the emergency notch). -/
def speed_control_128steps (direction speed : Int) : Int :=
  let speed : Int :=
    if speed = -1 then 1
    else if speed = 0 then 0
    else pyAnd (if speed < 126 then speed + 2 else speed) 0x7e
  let speed := pyOr speed (pyShiftL direction 7)
  pyAnd speed 0xff

/-- Embedding of `ELECTRICAL.speed_control_28steps`. -/
def speed_control_28steps (direction speed : Int) : Int :=
  let speed := min speed 28
  let cssss : Int :=
    if speed = -1 then 0
    else if 0 ≤ speed ∧ speed ≤ 28 then
      if speed = 0 then 0
      else
        let temp := speed + 3
        let c := pyShiftL (pyAnd temp 0b1) 4
        let ssss := pyShiftR temp 1
        pyOr c ssss
    else 0
  pyAnd (pyOr (pyOr 0b01000000 (pyShiftL direction 5)) cssss) 0xff

/-- Embedding of `ELECTRICAL.speed_control_14steps`: the body is `pass`,
so the Python function returns `None`. -/
def speed_control_14steps (_direction _speed : Int) : Option Int := none

/-- Embedding of `ELECTRICAL.to_bin`: emits the eight bits of `num`
most-significant-bit first, followed by one trailing zero bit. -/
def to_bin (num : Nat) : Nat :=
  (List.range 8).foldl
    (fun stream j =>
      (if num &&& (1 <<< (7 - j)) ≠ 0 then stream ||| 1 else stream) <<< 1)
    0

/-- Embedding of `ELECTRICAL.prepare`.  Python mutates its `packet`
argument (appending the checksum byte); the mutated list is returned as the
third component.  All bytes reaching `prepare` in the source are
nonnegative, so bytes are embedded as `Nat`.  Returns
(number of 32-bit words, bit stream, mutated packet). -/
def prepare (packet : List Nat) : Nat × Nat × List Nat :=
  if 2 ≤ packet.length ∧ packet.length ≤ 5 then
    let err := packet.foldl (fun a b => a ^^^ b) 0
    let packet := packet ++ [err]
    let preamble := PREAMBLE
    let bits := preamble + packet.length * 9 + 1
    let padding := 32 - bits % 32
    let stream := (List.range (padding + preamble)).foldl
      (fun s _ => (s ||| 1) <<< 1) 0
    let stream := packet.foldl (fun s i => (s <<< 9) ||| to_bin i) stream
    let stream := stream ||| 1
    ((padding + bits) / 32, stream, packet)
  else
    (0, 0, packet)

/-- Per-locomotive command state (the fields of an `OPERATIONS` object:
`OPERATIONS` inherits from `ELECTRICAL`, so the same Python object also
carries the electrical fields, modelled separately by `EState`). -/
structure Loco where
  address : Nat
  use_long_address : Bool
  speedsteps : Nat
  dir : Int
  fs : Int
  functions : List Int
  buffer_dirty : Bool

/-- Address bytes of a locomotive: two bytes for a long address
(`192 | address // 256`, `address & 0xff`), one byte otherwise. -/
def addressBytes (loco : Loco) : List Nat :=
  if loco.use_long_address then
    [192 ||| loco.address / 256, loco.address &&& 0xff]
  else
    [loco.address]

/-- Embedding of `ELECTRICAL.generate_instructions`.  For each locomotive:
one speed/direction instruction (the 14-step branch computes
`speed_control_14steps` but appends nothing, and the default branch appends
nothing), then one instruction per function-group byte.  Speed bytes are
provably nonnegative; `Int.toNat` is the byte coercion.  Returns
(lengths, words), each entry from one `prepare` call. -/
def generate_instructions (locos : List Loco) : List Nat × List Nat :=
  locos.foldl
    (fun acc loco =>
      let instruction : List Nat :=
        if loco.speedsteps = 128 then
          addressBytes loco ++
            [0b00111111, (speed_control_128steps loco.dir loco.fs).toNat]
        else if loco.speedsteps = 28 then
          addressBytes loco ++ [(speed_control_28steps loco.dir loco.fs).toNat]
        else
          addressBytes loco
      let lw := prepare instruction
      let acc := (acc.1 ++ [lw.1], acc.2 ++ [lw.2.1])
      loco.functions.foldl
        (fun acc f =>
          let lw := prepare (addressBytes loco ++ [f.toNat])
          (acc.1 ++ [lw.1], acc.2 ++ [lw.2.1]))
        acc)
    ([], [])

/-- Words emitted by `buffering`'s inner `while` loop for one packet of `l`
32-bit words stored in the bit stream `w`, most significant word first. -/
def splitWords (l w : Nat) : List Nat :=
  (List.range l).map (fun j => (w >>> ((l - 1 - j) * 32)) &&& 0xffffffff)

/-- Electrical/streaming state of the driver object (fields set by
`ELECTRICAL.__init__`; the `locos` class attribute is the registry). -/
structure EState where
  power_state : Bool
  buffer_dirty : Bool
  emergency : Bool
  ringbuffer : List Nat
  locos : List Loco

/-- Embedding of `ELECTRICAL.__init__`: a freshly configured output pin
reads low, so `power_state` starts false; `buffer_dirty` and `emergency`
start false, the ring buffer and the registry start empty. -/
def initEState : EState :=
  { power_state := false, buffer_dirty := false, emergency := false,
    ringbuffer := [], locos := [] }

/-- Embedding of `ELECTRICAL.power_on` (pin writes and the synchronous
short-circuit check touch only hardware and are omitted). -/
def power_on (s : EState) : EState := { s with power_state := true }

/-- Embedding of `ELECTRICAL.power_off`. -/
def power_off (s : EState) : EState :=
  { s with power_state := false, emergency := false }

/-- Embedding of `ELECTRICAL.emergency_stop`. -/
def emergency_stop (s : EState) : EState := { s with emergency := true }

/-- Embedding of `ELECTRICAL.buffering`.  Returns the buffer and the
updated state (the emergency branch clears the flag). -/
def buffering (s : EState) : List Nat × EState :=
  if s.emergency = true then
    ((List.range 5).foldl (fun b _ => b ++ EMERG) [], { s with emergency := false })
  else
    let lw := generate_instructions s.locos
    let buffer := (lw.1.zip lw.2).foldl (fun b p => b ++ splitWords p.1 p.2) []
    (if buffer = [] then IDLE else buffer, s)

/-- Embedding of `ELECTRICAL.send2track`.  The periodic current check only
touches hardware (it can raise on a physical short) and is omitted.  The
words pushed to the PIO state machine are returned as the second component;
when power is off nothing is pushed. -/
def send2track (s : EState) : EState × List Nat :=
  if s.power_state = true then
    if s.buffer_dirty = true then
      let bs := buffering s
      ({ bs.2 with ringbuffer := bs.1, buffer_dirty := false }, bs.1)
    else
      ({ s with buffer_dirty := false }, s.ringbuffer)
  else
    (s, [])

end ELECTRICAL

namespace OPERATIONS

open ELECTRICAL

/-- Embedding of `OPERATIONS.__init__` (with a non-`None` address): initial
direction 1, speed step 0, function bytes `[0b10000000, 0b10110000,
0b10100000]`, clean buffer. -/
def init (address : Nat) (use_long_address : Bool) (speedsteps : Nat) : Loco :=
  { address := address, use_long_address := use_long_address,
    speedsteps := speedsteps, dir := 1, fs := 0,
    functions := [0b10000000, 0b10110000, 0b10100000], buffer_dirty := false }

/-- Embedding of `OPERATIONS.get_function_group_index`. -/
def get_function_group_index (function_nr : Int) : Nat :=
  if function_nr < 5 then 0 else if function_nr < 9 then 1 else 2

/-- Embedding of `OPERATIONS.get_function_shift`.  Python's `%` on a
positive divisor is `Int.emod` (nonnegative result). -/
def get_function_shift (function_nr : Int) : Nat :=
  if function_nr = 0 then 4 else ((function_nr - 1).emod 4).toNat

/-- Embedding of `OPERATIONS.function_control`. -/
def function_control (funktion : Int) : Int :=
  let f : Int := 0b10000000
  if 0 ≤ funktion ∧ funktion ≤ 4 then f
  else if 5 ≤ funktion ∧ funktion ≤ 8 then pyOr f 0b110000
  else if 9 ≤ funktion ∧ funktion ≤ 12 then pyOr f 0b100000
  else f

/-- Embedding of `OPERATIONS.get_function`. -/
def get_function (l : Loco) (function_nr : Int) : Bool :=
  if 0 ≤ function_nr ∧ function_nr ≤ 12 then
    let g := get_function_group_index function_nr
    decide (pyAnd (l.functions.getD g 0)
      (pyShiftL 1 (get_function_shift function_nr)) ≠ 0)
  else
    false

/-- Embedding of `OPERATIONS.set_function`.  The function byte is updated
only for `0 ≤ function_nr ≤ 12`; `buffer_dirty` is set unconditionally. -/
def set_function (l : Loco) (function_nr : Int) (status : Bool) : Loco :=
  let l :=
    if 0 ≤ function_nr ∧ function_nr ≤ 12 then
      let g := get_function_group_index function_nr
      let instruction_pref := function_control function_nr
      let cur := l.functions.getD g 0
      let v :=
        if status = true then
          pyOr cur (pyOr (pyShiftL 1 (get_function_shift function_nr))
            instruction_pref)
        else
          pyAnd cur (pyOr (pyNot (pyShiftL 1 (get_function_shift function_nr)))
            instruction_pref)
      { l with functions := l.functions.set g v }
    else l
  { l with buffer_dirty := true }

/-- Embedding of `OPERATIONS.drive`. -/
def drive (l : Loco) (richtung fahrstufe : Int) : Loco :=
  { l with dir := richtung, fs := fahrstufe, buffer_dirty := true }

end OPERATIONS

/-! ## Specification-side definitions -/

/-- Value of a bit list read most-significant-bit first. -/
def natOfBits (l : List Bool) : Nat := l.foldl (fun a b => 2 * a + b.toNat) 0

/-- The eight data bits of a byte, most-significant-bit first. -/
def byteBits (b : Nat) : List Bool :=
  [b.testBit 7, b.testBit 6, b.testBit 5, b.testBit 4,
   b.testBit 3, b.testBit 2, b.testBit 1, b.testBit 0]

/-- Wire format described by the specification: a run of one-bits, then for
every byte a zero start bit followed by its eight data bits
most-significant-bit first, then a final one stop bit. -/
def frameBits (ones : Nat) (bytes : List Nat) : List Bool :=
  List.replicate ones true ++ bytes.flatMap (fun b => false :: byteBits b) ++ [true]

/-- XOR of a byte list, as computed by the checksum loop in `prepare`. -/
def checksum (p : List Nat) : Nat := p.foldl (fun a b => a ^^^ b) 0

/-- Concrete powered state with the emergency flag set but a clean dirty
flag, as reached by `emergency_stop` alone after an idle rebuild. -/
def cleanEmergState : ELECTRICAL.EState :=
  { power_state := true, buffer_dirty := false, emergency := true,
    ringbuffer := ELECTRICAL.IDLE, locos := [] }

/-- Concrete powered state with both the dirty and emergency flags set. -/
def dirtyEmergState : ELECTRICAL.EState :=
  { power_state := true, buffer_dirty := true, emergency := true,
    ringbuffer := [], locos := [] }

/-- Concrete powered clean state holding the Idle words as ring buffer. -/
def idleRingState : ELECTRICAL.EState :=
  { power_state := true, buffer_dirty := false, emergency := false,
    ringbuffer := ELECTRICAL.IDLE, locos := [] }

/-- Two's-complement bit `i` of a Python integer. -/
def bitP (t : Int) (i : Nat) : Bool :=
  match t with
  | .ofNat a => a.testBit i
  | .negSucc a => !(a.testBit i)

/-- NMRA function-group invariant of the three function bytes: each group
byte keeps its group's instruction bits set (`0x80`, `0xB0`, `0xA0`). -/
def funcInv (fs : List Int) : Prop :=
  pyAnd (fs.getD 0 0) 0x80 = 0x80
  ∧ pyAnd (fs.getD 1 0) 0xB0 = 0xB0
  ∧ pyAnd (fs.getD 2 0) 0xA0 = 0xA0

/-! ## Helper lemmas -/

theorem natOfBits_foldl (l : List Bool) (a : Nat) :
    l.foldl (fun x b => 2 * x + b.toNat) a = a * 2 ^ l.length + natOfBits l := by
  induction l generalizing a with
  | nil => simp [natOfBits]
  | cons b t ih =>
      have h0 : natOfBits (b :: t) = b.toNat * 2 ^ t.length + natOfBits t := by
        have h := ih (2 * 0 + b.toNat)
        simpa [natOfBits] using h
      simp only [List.foldl_cons, List.length_cons, h0, ih (2 * a + b.toNat)]
      ring

theorem natOfBits_cons (b : Bool) (t : List Bool) :
    natOfBits (b :: t) = b.toNat * 2 ^ t.length + natOfBits t := by
  have h := natOfBits_foldl t (2 * 0 + b.toNat)
  simpa [natOfBits] using h

theorem natOfBits_append (xs ys : List Bool) :
    natOfBits (xs ++ ys) = natOfBits xs * 2 ^ ys.length + natOfBits ys := by
  unfold natOfBits
  rw [List.foldl_append]
  have h := natOfBits_foldl ys (List.foldl (fun x b => 2 * x + b.toNat) 0 xs)
  unfold natOfBits at h
  exact h

theorem natOfBits_lt (l : List Bool) : natOfBits l < 2 ^ l.length := by
  induction l with
  | nil => simp [natOfBits]
  | cons b t ih =>
      rw [natOfBits_cons]
      have hb : b.toNat ≤ 1 := Bool.toNat_le b
      have hp : (0:Nat) < 2 ^ t.length := Nat.two_pow_pos t.length
      have : b.toNat * 2 ^ t.length ≤ 2 ^ t.length := by
        calc b.toNat * 2 ^ t.length ≤ 1 * 2 ^ t.length :=
              Nat.mul_le_mul_right _ hb
          _ = 2 ^ t.length := one_mul _
      simp only [List.length_cons, pow_succ]
      omega

theorem two_mul_or_one (t : Nat) : t * 2 ||| 1 = t * 2 + 1 := by
  have h := Nat.mul_add_lt_is_or (b := 1) (i := 1) (by norm_num) t
  simpa [pow_one, Nat.mul_comm] using h.symm

theorem to_bin_eq (b : Nat) : ELECTRICAL.to_bin b = 2 * natOfBits (byteBits b) := by
  have hcond : ∀ k, (b &&& (1 <<< k) ≠ 0) ↔ (b.testBit k = true) := by
    intro k
    rw [Nat.shiftLeft_eq, one_mul, Nat.and_two_pow]
    have hp : 2 ^ k ≠ 0 := Nat.pos_iff_ne_zero.mp (Nat.two_pow_pos k)
    cases h : b.testBit k <;> simp [hp]
  have hr : List.range 8 = [0, 1, 2, 3, 4, 5, 6, 7] := rfl
  unfold ELECTRICAL.to_bin byteBits natOfBits
  rw [hr]
  simp only [List.foldl_cons, List.foldl_nil, hcond]
  cases b.testBit 7 <;> cases b.testBit 6 <;> cases b.testBit 5 <;>
    cases b.testBit 4 <;> cases b.testBit 3 <;> cases b.testBit 2 <;>
    cases b.testBit 1 <;> cases b.testBit 0 <;> decide

theorem preamble_foldl (n : Nat) :
    (List.range n).foldl (fun s _ => (s ||| 1) <<< 1) 0
      = 2 * natOfBits (List.replicate n true) := by
  induction n with
  | zero => simp [natOfBits]
  | succ k ih =>
      rw [List.range_succ, List.foldl_append, ih]
      simp only [List.foldl_cons, List.foldl_nil]
      rw [List.replicate_succ', natOfBits_append]
      have h1 : 2 * natOfBits (List.replicate k true) ||| 1
          = 2 * natOfBits (List.replicate k true) + 1 := by
        have h := two_mul_or_one (natOfBits (List.replicate k true))
        simpa [Nat.mul_comm] using h
      rw [h1, Nat.shiftLeft_eq]
      simp [natOfBits]
      ring

theorem byte_foldl (l : List Nat) (xs : List Bool) :
    l.foldl (fun s i => (s <<< 9) ||| ELECTRICAL.to_bin i) (2 * natOfBits xs)
      = 2 * natOfBits (xs ++ l.flatMap (fun b => false :: byteBits b)) := by
  induction l generalizing xs with
  | nil => simp
  | cons b t ih =>
      simp only [List.foldl_cons]
      have hB : natOfBits (byteBits b) < 2 ^ 8 := by
        have h := natOfBits_lt (byteBits b)
        simpa [byteBits] using h
      have hstep : (2 * natOfBits xs) <<< 9 ||| ELECTRICAL.to_bin b
          = 2 * natOfBits (xs ++ (false :: byteBits b)) := by
        rw [to_bin_eq, Nat.shiftLeft_eq, natOfBits_append, natOfBits_cons]
        have hor := Nat.mul_add_lt_is_or
          (b := 2 * natOfBits (byteBits b)) (i := 9)
          (by omega) (2 * natOfBits xs)
        rw [Nat.mul_comm (2 * natOfBits xs) (2 ^ 9), ← hor]
        simp [byteBits]
        ring
      rw [hstep, ih (xs ++ (false :: byteBits b))]
      simp [List.flatMap_cons, List.append_assoc]

theorem two_mul_or_one' (t : Nat) : 2 * t ||| 1 = 2 * t + 1 := by
  have h := two_mul_or_one t
  simpa [Nat.mul_comm] using h

theorem byteBits_length (b : Nat) : (byteBits b).length = 8 := rfl

theorem flatMap_byte_length (l : List Nat) :
    (l.flatMap (fun b => false :: byteBits b)).length = 9 * l.length := by
  induction l with
  | nil => simp
  | cons b t ih =>
      rw [List.flatMap_cons]
      simp only [List.length_append, List.length_cons, byteBits_length, ih]
      ring

/-- C3: for every instruction byte sequence of length 2 to 5, the bit
stream produced by `prepare` is, read most-significant-bit first, a run of
one-bits of length `PREAMBLE` plus the padding that rounds the total up to
a multiple of 32, then for every byte (including the appended checksum
byte) a zero start bit followed by the byte's eight data bits
most-significant-bit first, then a final one stop bit; the total bit
length is `32 *` the returned word count, all padding being absorbed as
additional leading one-bits. -/
theorem prepare_frames_wire_format (p : List Nat) (h2 : 2 ≤ p.length)
    (h5 : p.length ≤ 5) (_hb : ∀ b ∈ p, b < 256) :
    (ELECTRICAL.prepare p).2.1
      = natOfBits (frameBits
          (ELECTRICAL.PREAMBLE +
            (32 - (ELECTRICAL.PREAMBLE + (p.length + 1) * 9 + 1) % 32))
          (p ++ [checksum p]))
    ∧ (frameBits
          (ELECTRICAL.PREAMBLE +
            (32 - (ELECTRICAL.PREAMBLE + (p.length + 1) * 9 + 1) % 32))
          (p ++ [checksum p])).length
      = 32 * (ELECTRICAL.prepare p).1 := by
  have hcond : 2 ≤ p.length ∧ p.length ≤ 5 := ⟨h2, h5⟩
  unfold ELECTRICAL.prepare
  rw [if_pos hcond]
  simp only [checksum]
  constructor
  · rw [preamble_foldl, byte_foldl]
    rw [two_mul_or_one']
    unfold frameBits
    have he : 32 - (ELECTRICAL.PREAMBLE
          + (p ++ [List.foldl (fun a b => a ^^^ b) 0 p]).length * 9 + 1) % 32
          + ELECTRICAL.PREAMBLE
        = ELECTRICAL.PREAMBLE
          + (32 - (ELECTRICAL.PREAMBLE + (p.length + 1) * 9 + 1) % 32) := by
      simp only [List.length_append, List.length_cons, List.length_nil,
        ELECTRICAL.PREAMBLE]
      omega
    rw [he]
    conv_lhs => rw [natOfBits_append]
    conv_rhs => rw [natOfBits_append, natOfBits_append]
    have htrue : natOfBits [true] = 1 := rfl
    simp only [htrue, List.length_cons, List.length_nil, pow_one]
    omega
  · unfold frameBits
    simp only [List.length_append, List.length_replicate, List.length_cons,
      List.length_nil, flatMap_byte_length, ELECTRICAL.PREAMBLE]
    omega

/-- Witness for C3 at the idle packet bytes `[0xff, 0x00]`. -/
theorem prepare_frames_wire_format_witness :
    (2 ≤ ([0xff, 0x00] : List Nat).length ∧ ([0xff, 0x00] : List Nat).length ≤ 5
      ∧ (∀ b ∈ ([0xff, 0x00] : List Nat), b < 256))
    ∧ ((ELECTRICAL.prepare [0xff, 0x00]).2.1
        = natOfBits (frameBits
            (ELECTRICAL.PREAMBLE +
              (32 - (ELECTRICAL.PREAMBLE + (([0xff, 0x00] : List Nat).length + 1) * 9 + 1) % 32))
            ([0xff, 0x00] ++ [checksum [0xff, 0x00]]))
      ∧ (frameBits
            (ELECTRICAL.PREAMBLE +
              (32 - (ELECTRICAL.PREAMBLE + (([0xff, 0x00] : List Nat).length + 1) * 9 + 1) % 32))
            ([0xff, 0x00] ++ [checksum [0xff, 0x00]])).length
        = 32 * (ELECTRICAL.prepare [0xff, 0x00]).1) :=
  ⟨⟨by decide, by decide, by decide⟩,
    prepare_frames_wire_format [0xff, 0x00] (by decide) (by decide) (by decide)⟩

/-- C2: for every instruction byte sequence of length 2 to 5, `prepare`
appends exactly one checksum byte, the XOR of all instruction bytes, so
the XOR of the whole framed byte sequence is 0. -/
theorem prepare_appends_xor_checksum (p : List Nat) (h2 : 2 ≤ p.length)
    (h5 : p.length ≤ 5) :
    (ELECTRICAL.prepare p).2.2 = p ++ [checksum p]
    ∧ (ELECTRICAL.prepare p).2.2.foldl (fun a b => a ^^^ b) 0 = 0 := by
  have hcond : 2 ≤ p.length ∧ p.length ≤ 5 := ⟨h2, h5⟩
  unfold ELECTRICAL.prepare
  rw [if_pos hcond]
  constructor
  · simp [checksum]
  · simp [checksum, List.foldl_append, Nat.xor_self]

/-- Witness for C2 at the packet `[3, 63, 180]`. -/
theorem prepare_appends_xor_checksum_witness :
    (2 ≤ ([3, 63, 180] : List Nat).length ∧ ([3, 63, 180] : List Nat).length ≤ 5)
    ∧ ((ELECTRICAL.prepare [3, 63, 180]).2.2 = [3, 63, 180] ++ [checksum [3, 63, 180]]
      ∧ (ELECTRICAL.prepare [3, 63, 180]).2.2.foldl (fun a b => a ^^^ b) 0 = 0) :=
  ⟨⟨by decide, by decide⟩,
    prepare_appends_xor_checksum [3, 63, 180] (by decide) (by decide)⟩

/-- C4 counterexample: framing the packet with address byte `0x00` and
command byte `0x01` does not reproduce the stored `EMERG` words (the
stored constant encodes command byte `0x41`). -/
theorem emerg_words_not_cmd_0x01 :
    ELECTRICAL.splitWords (ELECTRICAL.prepare [0x00, 0x01]).1
      (ELECTRICAL.prepare [0x00, 0x01]).2.1 ≠ ELECTRICAL.EMERG := by
  decide

/-- C4 (amended): under the framing of `prepare`, `IDLE` is exactly the
rendering of the Idle packet (address byte `0xff`, command byte `0x00`)
and `EMERG` is exactly the rendering of the broadcast emergency-stop
packet with address byte `0x00` and command byte `0x41`, each as a fixed
sequence of 2 transfer words. -/
theorem reserved_prerendered_packets :
    ELECTRICAL.IDLE
      = ELECTRICAL.splitWords (ELECTRICAL.prepare [0xff, 0x00]).1
          (ELECTRICAL.prepare [0xff, 0x00]).2.1
    ∧ (ELECTRICAL.prepare [0xff, 0x00]).1 = 2
    ∧ ELECTRICAL.EMERG
      = ELECTRICAL.splitWords (ELECTRICAL.prepare [0x00, 0x41]).1
          (ELECTRICAL.prepare [0x00, 0x41]).2.1
    ∧ (ELECTRICAL.prepare [0x00, 0x41]).1 = 2 := by
  refine ⟨by decide, by decide, by decide, by decide⟩

/-- C5 counterexample: on the one-byte packet `[1]` (length outside
`[2,5]`), `prepare` does not fail: it returns the sentinel result
`(0, 0, [1])`. -/
theorem prepare_invalid_returns_result :
    ELECTRICAL.prepare [1] = (0, 0, [1]) := by decide

/-- C5 (amended): for every instruction byte sequence whose length is
outside `[2,5]`, `prepare` raises no error: it returns word count 0 and
stream 0 and leaves the packet unchanged (no checksum is appended). -/
theorem prepare_invalid_length_sentinel (p : List Nat)
    (h : p.length < 2 ∨ 5 < p.length) :
    ELECTRICAL.prepare p = (0, 0, p) := by
  have hcond : ¬(2 ≤ p.length ∧ p.length ≤ 5) := by omega
  unfold ELECTRICAL.prepare
  rw [if_neg hcond]

/-- Witness for the amended C5 at the six-byte packet `[1,2,3,4,5,6]`. -/
theorem prepare_invalid_length_sentinel_witness :
    (([1, 2, 3, 4, 5, 6] : List Nat).length < 2 ∨ 5 < ([1, 2, 3, 4, 5, 6] : List Nat).length)
    ∧ ELECTRICAL.prepare [1, 2, 3, 4, 5, 6] = (0, 0, [1, 2, 3, 4, 5, 6]) :=
  ⟨by decide, prepare_invalid_length_sentinel [1, 2, 3, 4, 5, 6] (by decide)⟩

theorem foldl_emit2 {α : Type} (g1 g2 : α → Nat) (fs : List α) :
    ∀ acc : List Nat × List Nat,
    fs.foldl (fun acc f => (acc.1 ++ [g1 f], acc.2 ++ [g2 f])) acc
      = (acc.1 ++ fs.map g1, acc.2 ++ fs.map g2) := by
  induction fs with
  | nil => intro acc; simp
  | cons f t ih =>
      intro acc
      simp only [List.foldl_cons, List.map_cons, ih]
      simp

/-- C6 counterexample: encoding the registry containing one locomotive in
14-step mode (short address 3) returns normally, with word count 0 for the
speed packet followed by the three function packets; no error occurs. -/
theorem fourteen_step_counterexample :
    (ELECTRICAL.generate_instructions [OPERATIONS.init 3 false 14]).1
      = [0, 2, 2, 2] := by
  decide

/-- C6 (amended): encoding a locomotive with speed-step mode 14 raises no
error: the 14-step branch appends no speed byte, so for a short-address
locomotive the speed instruction consists of the address byte alone,
`prepare` rejects it with word count 0, and the speed packet is silently
omitted from the stream (zero transfer words), while the function packets
are still produced. -/
theorem fourteen_step_silently_omitted (l : ELECTRICAL.Loco)
    (h14 : l.speedsteps = 14) (hshort : l.use_long_address = false) :
    (ELECTRICAL.generate_instructions [l]).1
      = 0 :: l.functions.map
          (fun f => (ELECTRICAL.prepare (ELECTRICAL.addressBytes l ++ [f.toNat])).1)
    ∧ ELECTRICAL.splitWords (ELECTRICAL.prepare (ELECTRICAL.addressBytes l)).1
        (ELECTRICAL.prepare (ELECTRICAL.addressBytes l)).2.1 = [] := by
  have haddr : ELECTRICAL.addressBytes l = [l.address] := by
    simp [ELECTRICAL.addressBytes, hshort]
  have hprep : ELECTRICAL.prepare (ELECTRICAL.addressBytes l)
      = (0, 0, [l.address]) := by
    rw [haddr]
    unfold ELECTRICAL.prepare
    rw [if_neg (by simp)]
  constructor
  · simp only [ELECTRICAL.generate_instructions, List.foldl_cons, List.foldl_nil,
      h14]
    norm_num
    rw [hprep]
    rw [foldl_emit2
      (fun f : Int => (ELECTRICAL.prepare (ELECTRICAL.addressBytes l ++ [f.toNat])).1)
      (fun f : Int => (ELECTRICAL.prepare (ELECTRICAL.addressBytes l ++ [f.toNat])).2.1)]
    simp
  · rw [hprep]
    simp [ELECTRICAL.splitWords]

/-- Witness for the amended C6 at a concrete 14-step locomotive. -/
theorem fourteen_step_silently_omitted_witness :
    ((OPERATIONS.init 3 false 14).speedsteps = 14
      ∧ (OPERATIONS.init 3 false 14).use_long_address = false)
    ∧ ((ELECTRICAL.generate_instructions [OPERATIONS.init 3 false 14]).1
        = 0 :: (OPERATIONS.init 3 false 14).functions.map
            (fun f => (ELECTRICAL.prepare
              (ELECTRICAL.addressBytes (OPERATIONS.init 3 false 14) ++ [f.toNat])).1)
      ∧ ELECTRICAL.splitWords
          (ELECTRICAL.prepare (ELECTRICAL.addressBytes (OPERATIONS.init 3 false 14))).1
          (ELECTRICAL.prepare (ELECTRICAL.addressBytes (OPERATIONS.init 3 false 14))).2.1
        = []) :=
  ⟨⟨by decide, by decide⟩,
    fourteen_step_silently_omitted (OPERATIONS.init 3 false 14) (by decide) (by decide)⟩

/-- C10: for every function index outside `[0,12]`, `set_function` leaves
the function-group bytes unchanged and `get_function` returns false for
that index, but `buffer_dirty` is still set to true unconditionally. -/
theorem set_function_out_of_range_dirty (l : ELECTRICAL.Loco) (fn : Int)
    (st : Bool) (h : fn < 0 ∨ 12 < fn) :
    (OPERATIONS.set_function l fn st).functions = l.functions
    ∧ (OPERATIONS.set_function l fn st).buffer_dirty = true
    ∧ OPERATIONS.get_function l fn = false := by
  have hcond : ¬(0 ≤ fn ∧ fn ≤ 12) := by omega
  refine ⟨?_, ?_, ?_⟩ <;>
    simp [OPERATIONS.set_function, OPERATIONS.get_function, hcond]

/-- Witness for C10 at function index 13. -/
theorem set_function_out_of_range_dirty_witness :
    ((13 : Int) < 0 ∨ (12 : Int) < 13)
    ∧ ((OPERATIONS.set_function (OPERATIONS.init 3 false 128) 13 true).functions
        = (OPERATIONS.init 3 false 128).functions
      ∧ (OPERATIONS.set_function (OPERATIONS.init 3 false 128) 13 true).buffer_dirty = true
      ∧ OPERATIONS.get_function (OPERATIONS.init 3 false 128) 13 = false) :=
  ⟨by decide,
    set_function_out_of_range_dirty (OPERATIONS.init 3 false 128) 13 true (by decide)⟩

theorem buffering_ne_nil (s : ELECTRICAL.EState) :
    (ELECTRICAL.buffering s).1 ≠ [] := by
  unfold ELECTRICAL.buffering
  cases he : s.emergency <;> simp only [he]
  · simp only [Bool.false_eq_true, if_false]
    split
    · decide
    · assumption
  · simp only [if_true]
    decide

/-- C1 counterexample: in the powered state with the emergency flag set
but the dirty flag clear (as after `emergency_stop` alone, which does not
set `buffer_dirty`), `send2track` resends the previous ring buffer (here
the Idle words) instead of the emergency sequence, and the flag stays
set. -/
theorem emergency_ignored_when_clean :
    (ELECTRICAL.send2track cleanEmergState).2 = ELECTRICAL.IDLE
    ∧ (ELECTRICAL.send2track cleanEmergState).2
        ≠ List.flatten (List.replicate 5 ELECTRICAL.EMERG)
    ∧ (ELECTRICAL.send2track cleanEmergState).1.emergency = true := by
  refine ⟨by decide, by decide, by decide⟩

/-- C1 (amended): whenever the emergency flag is set and the dirty flag is
also set (so a rebuild runs), the next `send2track` delivers the Emergency
sequence repeated 5 times (ten transfer words, the two `EMERG` words five
times) regardless of the registry contents, and clears the emergency flag
together with the dirty flag, so on the call after the flag reads false;
when the dirty flag is clear the emergency flag is ignored (see the
counterexample). -/
theorem emergency_priority_when_dirty (s : ELECTRICAL.EState)
    (hp : s.power_state = true) (hd : s.buffer_dirty = true)
    (he : s.emergency = true) :
    (ELECTRICAL.send2track s).2 = List.flatten (List.replicate 5 ELECTRICAL.EMERG)
    ∧ (ELECTRICAL.send2track s).2.length = 10
    ∧ (ELECTRICAL.send2track s).1.emergency = false
    ∧ (ELECTRICAL.send2track s).1.buffer_dirty = false := by
  unfold ELECTRICAL.send2track ELECTRICAL.buffering
  rw [hp, hd, he]
  refine ⟨?_, ?_, ?_, ?_⟩ <;> simp <;> decide

/-- Witness for the amended C1 at `dirtyEmergState`. -/
theorem emergency_priority_when_dirty_witness :
    (dirtyEmergState.power_state = true
      ∧ dirtyEmergState.buffer_dirty = true
      ∧ dirtyEmergState.emergency = true)
    ∧ ((ELECTRICAL.send2track dirtyEmergState).2
        = List.flatten (List.replicate 5 ELECTRICAL.EMERG)
      ∧ (ELECTRICAL.send2track dirtyEmergState).2.length = 10
      ∧ (ELECTRICAL.send2track dirtyEmergState).1.emergency = false
      ∧ (ELECTRICAL.send2track dirtyEmergState).1.buffer_dirty = false) :=
  ⟨⟨rfl, rfl, rfl⟩, emergency_priority_when_dirty dirtyEmergState rfl rfl rfl⟩

/-- C7 counterexample: directly after `__init__` and `power_on` (a
reachable powered state), `buffer_dirty` is false and the ring buffer is
empty, so `send2track` hands zero words to the consumer: the track is
silent. -/
theorem powered_fresh_state_sends_nothing :
    (ELECTRICAL.send2track (ELECTRICAL.power_on ELECTRICAL.initEState)).2 = [] := by
  decide

/-- C7 (amended): in every powered state in which the dirty flag is set or
the ring buffer is nonempty (that is, once any rebuild has produced a
buffer), the word sequence handed to the consumer by `send2track` is
nonempty, since a rebuild always yields at least the Idle or Emergency
words; but in the freshly powered state, with a clean flag and an empty
ring buffer, the delivery is empty (see the counterexample). -/
theorem powered_delivery_nonempty (s : ELECTRICAL.EState)
    (hp : s.power_state = true)
    (h : s.buffer_dirty = true ∨ s.ringbuffer ≠ []) :
    (ELECTRICAL.send2track s).2 ≠ [] := by
  unfold ELECTRICAL.send2track
  rw [hp]
  cases hd : s.buffer_dirty
  · rcases h with h | h
    · rw [h] at hd; cases hd
    · simpa using h
  · simpa using buffering_ne_nil s

/-- Witness for the amended C7 at `idleRingState`. -/
theorem powered_delivery_nonempty_witness :
    (idleRingState.power_state = true
      ∧ (idleRingState.buffer_dirty = true ∨ idleRingState.ringbuffer ≠ []))
    ∧ (ELECTRICAL.send2track idleRingState).2 ≠ [] :=
  ⟨⟨rfl, Or.inr (by decide)⟩,
    powered_delivery_nonempty idleRingState rfl (Or.inr (by decide))⟩

theorem pyAnd_ofNat (a b : Nat) :
    pyAnd (a : Int) (b : Int) = ((a &&& b : Nat) : Int) := rfl

theorem pyOr_ofNat (a b : Nat) :
    pyOr (a : Int) (b : Int) = ((a ||| b : Nat) : Int) := rfl

theorem ndiff_testBit (a b i : Nat) :
    (ndiff a b).testBit i = (a.testBit i && !(b.testBit i)) := by
  simp only [ndiff, Nat.testBit_xor, Nat.testBit_and]
  cases a.testBit i <;> cases b.testBit i <;> rfl

theorem pyAnd_evenmask (t : Int) :
    ∃ n : Nat, pyAnd t 126 = (n : Int) ∧ n ≤ 126 ∧ n % 2 = 0 := by
  have h126 : Nat.testBit 126 0 = false := by decide
  cases t with
  | ofNat a =>
      refine ⟨a &&& 126, rfl, Nat.and_le_right, ?_⟩
      rw [Nat.mod_two_eq_zero_iff_testBit_zero, Nat.testBit_and, h126,
        Bool.and_false]
  | negSucc a =>
      refine ⟨ndiff 126 a, rfl, ?_, ?_⟩
      · apply Nat.le_of_testBit
        intro i hi
        rw [ndiff_testBit] at hi
        exact (Bool.and_eq_true_iff.mp hi).1
      · rw [Nat.mod_two_eq_zero_iff_testBit_zero, ndiff_testBit, h126,
          Bool.false_and]

/-- C8: for the direction bit `d` and any integer speed `s`,
`speed_control_128steps` returns code 1 (plus the direction bit in bit 7)
when `s = -1`, code 0 when `s = 0`, and otherwise `s` incremented by 2
when below 126 and masked by `0x7e` to even values with the direction bit
placed in bit 7; in particular `encode128(1, 0) = 0x80` and
`encode128(0, -1) = 0x01`. -/
theorem speed128_encoding (d : Int) (hd : d = 0 ∨ d = 1) :
    ELECTRICAL.speed_control_128steps d (-1) = 128 * d + 1
    ∧ ELECTRICAL.speed_control_128steps d 0 = 128 * d
    ∧ (∀ s : Int, s ≠ -1 → s ≠ 0 →
        ∃ m : Int, m = pyAnd (if s < 126 then s + 2 else s) 0x7e
          ∧ 0 ≤ m ∧ m ≤ 126 ∧ m % 2 = 0
          ∧ ELECTRICAL.speed_control_128steps d s = 128 * d + m)
    ∧ ELECTRICAL.speed_control_128steps 1 0 = 0x80
    ∧ ELECTRICAL.speed_control_128steps 0 (-1) = 0x01 := by
  have hmain : ∀ s : Int, s ≠ -1 → s ≠ 0 →
      ∃ m : Int, m = pyAnd (if s < 126 then s + 2 else s) 0x7e
        ∧ 0 ≤ m ∧ m ≤ 126 ∧ m % 2 = 0
        ∧ ELECTRICAL.speed_control_128steps d s = 128 * d + m := by
    intro s hs1 hs0
    obtain ⟨n, hn, hle, hev⟩ := pyAnd_evenmask (if s < 126 then s + 2 else s)
    refine ⟨(n : Int), hn.symm, by omega, by omega, by omega, ?_⟩
    unfold ELECTRICAL.speed_control_128steps
    rw [if_neg hs1, if_neg hs0, hn]
    dsimp only
    rcases hd with rfl | rfl
    · have h70 : pyShiftL (0 : Int) 7 = ((0 : Nat) : Int) := by decide
      rw [h70, pyOr_ofNat, Nat.or_zero]
      have h255 : (255 : Int) = ((255 : Nat) : Int) := rfl
      rw [h255, pyAnd_ofNat]
      have e255 : (255 : Nat) = 2 ^ 8 - 1 := by norm_num
      rw [e255, Nat.and_pow_two_sub_one_of_lt_two_pow (by omega)]
      omega
    · have h71 : pyShiftL (1 : Int) 7 = ((128 : Nat) : Int) := by decide
      rw [h71, pyOr_ofNat]
      have hor : n ||| 128 = n + 128 := by
        have h := Nat.mul_add_lt_is_or (b := n) (i := 7) (by omega) 1
        rw [Nat.or_comm]
        have h2 := h.symm
        simpa [Nat.add_comm] using h2
      rw [hor]
      have h255 : (255 : Int) = ((255 : Nat) : Int) := rfl
      rw [h255, pyAnd_ofNat]
      have e255 : (255 : Nat) = 2 ^ 8 - 1 := by norm_num
      rw [e255, Nat.and_pow_two_sub_one_of_lt_two_pow (by omega)]
      omega
  refine ⟨?_, ?_, hmain, by decide, by decide⟩
  · rcases hd with rfl | rfl <;> decide
  · rcases hd with rfl | rfl <;> decide

/-- Witness for C8 at direction 1 (and speed 50 for the general case). -/
theorem speed128_encoding_witness :
    ((1 : Int) = 0 ∨ (1 : Int) = 1)
    ∧ (ELECTRICAL.speed_control_128steps 1 (-1) = 128 * 1 + 1
      ∧ ELECTRICAL.speed_control_128steps 1 0 = 128 * 1
      ∧ (∀ s : Int, s ≠ -1 → s ≠ 0 →
          ∃ m : Int, m = pyAnd (if s < 126 then s + 2 else s) 0x7e
            ∧ 0 ≤ m ∧ m ≤ 126 ∧ m % 2 = 0
            ∧ ELECTRICAL.speed_control_128steps 1 s = 128 * 1 + m)
      ∧ ELECTRICAL.speed_control_128steps 1 0 = 0x80
      ∧ ELECTRICAL.speed_control_128steps 0 (-1) = 0x01) :=
  ⟨Or.inr rfl, speed128_encoding 1 (Or.inr rfl)⟩

theorem bitP_ext {s t : Int} (h : ∀ i, bitP s i = bitP t i) : s = t := by
  cases s with
  | ofNat a =>
      cases t with
      | ofNat b =>
          have : a = b := by
            apply Nat.eq_of_testBit_eq
            intro i
            have hi := h i
            simpa [bitP] using hi
          rw [this]
      | negSucc b =>
          exfalso
          have hi := h (a + b)
          have ha : a.testBit (a + b) = false :=
            Nat.testBit_lt_two_pow
              (Nat.lt_of_le_of_lt (Nat.le_add_right a b) (Nat.lt_two_pow (a + b)))
          have hb : b.testBit (a + b) = false :=
            Nat.testBit_lt_two_pow
              (Nat.lt_of_le_of_lt (Nat.le_add_left b a) (Nat.lt_two_pow (a + b)))
          rw [bitP, bitP] at hi
          rw [ha, hb] at hi
          simp at hi
  | negSucc a =>
      cases t with
      | ofNat b =>
          exfalso
          have hi := h (a + b)
          have ha : a.testBit (a + b) = false :=
            Nat.testBit_lt_two_pow
              (Nat.lt_of_le_of_lt (Nat.le_add_right a b) (Nat.lt_two_pow (a + b)))
          have hb : b.testBit (a + b) = false :=
            Nat.testBit_lt_two_pow
              (Nat.lt_of_le_of_lt (Nat.le_add_left b a) (Nat.lt_two_pow (a + b)))
          rw [bitP, bitP] at hi
          rw [ha, hb] at hi
          simp at hi
      | negSucc b =>
          have : a = b := by
            apply Nat.eq_of_testBit_eq
            intro i
            have hi := h i
            simpa [bitP] using hi
          rw [this]

theorem bitP_pyOr (a b : Int) (i : Nat) :
    bitP (pyOr a b) i = (bitP a i || bitP b i) := by
  cases a <;> cases b <;>
    simp [pyOr, bitP, Nat.testBit_or, Nat.testBit_and, ndiff_testBit] <;>
    cases h1 : Nat.testBit _ i <;> simp

theorem bitP_pyAnd (a b : Int) (i : Nat) :
    bitP (pyAnd a b) i = (bitP a i && bitP b i) := by
  cases a <;> cases b <;>
    simp [pyAnd, bitP, Nat.testBit_or, Nat.testBit_and, ndiff_testBit] <;>
    cases h1 : Nat.testBit _ i <;> simp

theorem pyAnd_or_preserve (c x P : Int) (hx : pyAnd x P = P)
    (hc : pyAnd c P = P) : pyAnd (pyOr c x) P = P := by
  apply bitP_ext
  intro i
  have hxi := congrArg (fun y => bitP y i) hx
  have hci := congrArg (fun y => bitP y i) hc
  simp only [bitP_pyAnd] at hxi hci
  rw [bitP_pyAnd, bitP_pyOr]
  cases hP : bitP P i
  · simp [hP]
  · rw [hP] at hxi hci
    simp at hxi hci
    simp [hP, hxi, hci]

theorem pyAnd_and_preserve (c m P : Int) (hm : pyAnd P m = P)
    (hc : pyAnd c P = P) : pyAnd (pyAnd c m) P = P := by
  apply bitP_ext
  intro i
  have hmi := congrArg (fun y => bitP y i) hm
  have hci := congrArg (fun y => bitP y i) hc
  simp only [bitP_pyAnd] at hmi hci
  rw [bitP_pyAnd, bitP_pyAnd]
  cases hP : bitP P i
  · simp [hP]
  · rw [hP] at hci
    simp at hci
    have hmm : bitP m i = true := by
      by_contra hnot
      have : bitP m i = false := by
        cases hmb : bitP m i
        · rfl
        · exact absurd hmb hnot
      rw [this] at hmi
      simp at hmi
      rw [hmi] at hP
      cases hP
    simp [hP, hci, hmm]

theorem getD_set_ne (fs : List Int) (g i : Nat) (v : Int) (h : g ≠ i) :
    (fs.set g v).getD i 0 = fs.getD i 0 := by
  simp [List.getD_eq_getElem?_getD, List.getElem?_set_ne h]

theorem getD_set_self (fs : List Int) (g : Nat) (v : Int) :
    (fs.set g v).getD g 0 = if g < fs.length then v else fs.getD g 0 := by
  by_cases hg : g < fs.length
  · simp [List.getD_eq_getElem?_getD, List.getElem?_set_self hg, hg]
  · rw [List.set_eq_of_length_le (by omega)]
    simp [hg]

theorem funcInv_set (fs : List Int) (g : Nat) (v : Int) (h : funcInv fs)
    (hv0 : g = 0 → pyAnd v 0x80 = 0x80)
    (hv1 : g = 1 → pyAnd v 0xB0 = 0xB0)
    (hv2 : g = 2 → pyAnd v 0xA0 = 0xA0) :
    funcInv (fs.set g v) := by
  obtain ⟨h0, h1, h2⟩ := h
  refine ⟨?_, ?_, ?_⟩
  · by_cases hg : g = 0
    · subst hg
      rw [getD_set_self]
      split
      · exact hv0 rfl
      · exact h0
    · rw [getD_set_ne _ _ _ _ hg]
      exact h0
  · by_cases hg : g = 1
    · subst hg
      rw [getD_set_self]
      split
      · exact hv1 rfl
      · exact h1
    · rw [getD_set_ne _ _ _ _ hg]
      exact h1
  · by_cases hg : g = 2
    · subst hg
      rw [getD_set_self]
      split
      · exact hv2 rfl
      · exact h2
    · rw [getD_set_ne _ _ _ _ hg]
      exact h2

/-- C9: the three function-group bytes keep their NMRA instruction bits
(`functions[0] & 0x80 == 0x80`, `functions[1] & 0xB0 == 0xB0`,
`functions[2] & 0xA0 == 0xA0`): the invariant holds after initialization
and is preserved by every `set_function` call (set ORs the group bits in,
clear masks only a bit position below the group bits). -/
theorem function_group_invariant :
    (∀ (a : Nat) (ul : Bool) (ss : Nat),
        funcInv (OPERATIONS.init a ul ss).functions)
    ∧ (∀ (l : ELECTRICAL.Loco) (fn : Int) (st : Bool),
        funcInv l.functions → funcInv (OPERATIONS.set_function l fn st).functions) := by
  constructor
  · intro a ul ss
    exact ⟨rfl, rfl, rfl⟩
  · intro l fn st h
    unfold OPERATIONS.set_function
    by_cases hr : 0 ≤ fn ∧ fn ≤ 12
    · rw [if_pos hr]
      dsimp only
      have hfn : fn = 0 ∨ fn = 1 ∨ fn = 2 ∨ fn = 3 ∨ fn = 4 ∨ fn = 5 ∨ fn = 6
          ∨ fn = 7 ∨ fn = 8 ∨ fn = 9 ∨ fn = 10 ∨ fn = 11 ∨ fn = 12 := by omega
      obtain ⟨h0, h1, h2⟩ := h
      rcases hfn with rfl|rfl|rfl|rfl|rfl|rfl|rfl|rfl|rfl|rfl|rfl|rfl|rfl <;>
        cases st <;>
        (refine funcInv_set _ _ _ ⟨h0, h1, h2⟩ ?_ ?_ ?_ <;> intro hg <;>
          first
          | exact absurd hg (by decide)
          | (simp only [Bool.false_eq_true, if_false, if_true]
             first
             | (refine pyAnd_and_preserve _ _ _ ?_ h0; decide)
             | (refine pyAnd_and_preserve _ _ _ ?_ h1; decide)
             | (refine pyAnd_and_preserve _ _ _ ?_ h2; decide)
             | (refine pyAnd_or_preserve _ _ _ ?_ h0; decide)
             | (refine pyAnd_or_preserve _ _ _ ?_ h1; decide)
             | (refine pyAnd_or_preserve _ _ _ ?_ h2; decide)))
    · rw [if_neg hr]
      exact h

/-- Witness for C9: the invariant holds for a freshly initialized
locomotive and is preserved by a concrete `set_function` call. -/
theorem function_group_invariant_witness :
    funcInv (OPERATIONS.init 3 false 128).functions
    ∧ funcInv (OPERATIONS.set_function (OPERATIONS.init 3 false 128) 5 true).functions :=
  ⟨function_group_invariant.1 3 false 128,
    function_group_invariant.2 (OPERATIONS.init 3 false 128) 5 true
      (function_group_invariant.1 3 false 128)⟩
